import Mathlib

/-!
Shallow embedding of `remap_midi_tempo_meter.py` (basic_song_analyzer_mcp).

MIDI messages become a tagged payload plus an integer delta time; the
container is a resolution plus a list of tracks.  All real-number
computations of the source (mido's tempo/tick conversions) are modelled
exactly over `ℚ`; Python's builtin `round` (half to even) is `pyRound`.
-/

namespace SongRemap

/-- Payload of a MIDI message: tempo meta, time-signature meta, or any other
message kind with its parameters copied verbatim. -/
inductive Payload where
  | setTempo (tempo : ℤ)
  | timeSignature (numerator denominator : ℕ)
  | other (kind : ℕ) (params : List ℤ)
deriving DecidableEq, Repr

/-- A delta-timed MIDI message, as mido delivers it when iterating a track. -/
structure Msg where
  time : ℤ
  payload : Payload
deriving DecidableEq, Repr

/-- A parsed MIDI container: `mid.ticks_per_beat` and `mid.tracks`. -/
structure MidiFile where
  ticks_per_beat : ℕ
  tracks : List (List Msg)
deriving DecidableEq, Repr

/-- Python's builtin `round`: round half to even. -/
def pyRound (q : ℚ) : ℤ :=
  if q - q.floor < 1/2 then q.floor
  else if 1/2 < q - q.floor then q.floor + 1
  else if q.floor % 2 = 0 then q.floor else q.floor + 1

/-- `mido.tempo2bpm`: beats per minute from microseconds per beat. -/
def tempo2bpm (tempo : ℚ) : ℚ := 60000000 / tempo

/-- `mido.bpm2tempo`: `int(round(60 * 1e6 / bpm))`. -/
def bpm2tempo (bpm : ℚ) : ℤ := pyRound (60000000 / bpm)

/-- `mido.tick2second tick ticks_per_beat tempo = tick * (tempo * 1e-6 / ticks_per_beat)`. -/
def tick2second (tick ticks_per_beat tempo : ℚ) : ℚ :=
  tick * (tempo / 1000000 / ticks_per_beat)

/-- `mido.second2tick second ticks_per_beat tempo = second / (tempo * 1e-6 / ticks_per_beat)`. -/
def second2tick (second ticks_per_beat tempo : ℚ) : ℚ :=
  second / (tempo / 1000000 / ticks_per_beat)

/-- State of the pre-scan loop: `orig_bpm`, `orig_ts_num`, `orig_ts_den`. -/
structure ScanState where
  bpm : ℚ
  ts_num : ℕ
  ts_den : ℕ
deriving DecidableEq, Repr

/-- One step of the pre-scan: `set_tempo` overwrites the bpm, `time_signature`
overwrites numerator and denominator, anything else is ignored. -/
def scanMsg (s : ScanState) (m : Msg) : ScanState :=
  match m.payload with
  | .setTempo t => { s with bpm := tempo2bpm (t : ℚ) }
  | .timeSignature n d => { s with ts_num := n, ts_den := d }
  | .other _ _ => s

/-- The pre-scan over every track (source lines 29-41), starting from the
defaults 120 bpm and 4/4. -/
def scanFile (mid : MidiFile) : ScanState :=
  mid.tracks.foldl (fun s track => track.foldl scanMsg s) ⟨120, 4, 4⟩

/-- An extracted event: absolute seconds, the original message, its track. -/
structure TimedEvent where
  sec : ℚ
  msg : Msg
  track : ℕ
deriving DecidableEq, Repr

/-- Whether a payload is one of the two control messages the transform drops. -/
def isControl (p : Payload) : Bool :=
  match p with
  | .setTempo _ => true
  | .timeSignature _ _ => true
  | .other _ _ => false

/-- The per-track conversion loop (source lines 55-66): accumulate absolute
ticks, convert to absolute seconds with the running tempo, drop tempo and
time-signature messages, and tag everything else with its track index. -/
def convertGo (ppq : ℚ) (i : ℕ) : ℤ → ℤ → List Msg → List TimedEvent
  | _, _, [] => []
  | absTick, tempo, m :: rest =>
    let t := absTick + m.time
    match m.payload with
    | .setTempo newTempo => convertGo ppq i t newTempo rest
    | .timeSignature _ _ => convertGo ppq i t tempo rest
    | .other _ _ =>
        ⟨tick2second (t : ℚ) ppq (tempo : ℚ), m, i⟩ :: convertGo ppq i t tempo rest

/-- `for i, track in enumerate(mid.tracks)` around `convertGo`. -/
def convertAll (ppq : ℚ) (tempo0 : ℤ) : ℕ → List (List Msg) → List TimedEvent
  | _, [] => []
  | i, tr :: rest => convertGo ppq i 0 tempo0 tr ++ convertAll ppq tempo0 (i + 1) rest

/-- `mido.bpm2tempo(orig_bpm)`: the tempo value each track's context starts at. -/
def origTempoVal (mid : MidiFile) : ℤ := bpm2tempo (scanFile mid).bpm

/-- `all_events` of the source: every non-control message of every track,
tagged with absolute seconds and track index. -/
def allEvents (mid : MidiFile) : List TimedEvent :=
  convertAll (mid.ticks_per_beat : ℚ) (origTempoVal mid) 0 mid.tracks

/-- `final_bpm = target_bpm if target_bpm is not None else orig_bpm`. -/
def finalBpm (mid : MidiFile) (target_bpm : Option ℚ) : ℚ :=
  target_bpm.getD (scanFile mid).bpm

/-- `final_ppq = target_ppq if target_ppq is not None else orig_ppq`. -/
def finalPpq (mid : MidiFile) (target_ppq : Option ℕ) : ℕ :=
  target_ppq.getD mid.ticks_per_beat

/-- `final_ts_num = target_ts_num if target_ts_num is not None else orig_ts_num`. -/
def finalTsNum (mid : MidiFile) (target_ts_num : Option ℕ) : ℕ :=
  target_ts_num.getD (scanFile mid).ts_num

/-- `final_ts_den = target_ts_den if target_ts_den is not None else orig_ts_den`. -/
def finalTsDen (mid : MidiFile) (target_ts_den : Option ℕ) : ℕ :=
  target_ts_den.getD (scanFile mid).ts_den

/-- `new_tempo_val = mido.bpm2tempo(final_bpm)`. -/
def newTempoVal (mid : MidiFile) (target_bpm : Option ℚ) : ℤ :=
  bpm2tempo (finalBpm mid target_bpm)

/-- The sort key order used by `track_events.sort(key=lambda x: x["sec"])`. -/
def secLe (a b : TimedEvent) : Prop := a.sec ≤ b.sec

instance : DecidableRel secLe := fun a b => inferInstanceAs (Decidable (a.sec ≤ b.sec))

instance : IsTotal TimedEvent secLe := ⟨fun a b => le_total a.sec b.sec⟩

instance : IsTrans TimedEvent secLe := ⟨fun _ _ _ h h' => le_trans h h'⟩

/-- Python's list sort is stable; the stable sort by the `sec` key. -/
def sortEvents (l : List TimedEvent) : List TimedEvent := List.insertionSort secLe l

/-- The delta re-encoding loop (source lines 89-97): each event's new absolute
tick is `round(second2tick(sec, final_ppq, new_tempo_val))`, its delta time the
difference to the previous absolute tick (`last_tick` starts at 0), and its
payload the unmodified payload of the original message (`msg.copy()` with only
`time` overwritten). -/
def encodeTrack (ppq tempoVal : ℚ) : ℤ → List TimedEvent → List Msg
  | _, [] => []
  | lastTick, e :: rest =>
    let t := pyRound (second2tick e.sec ppq tempoVal)
    ⟨t - lastTick, e.msg.payload⟩ :: encodeTrack ppq tempoVal t rest

/-- `[e for e in all_events if e["track"] == i]`. -/
def trackEvents (mid : MidiFile) (i : ℕ) : List TimedEvent :=
  (allEvents mid).filter (fun e => e.track == i)

/-- Output track `i`: the two global meta messages are appended to track 0
first (source lines 76-81), then the remapped events of track `i`. -/
def outTrack (mid : MidiFile) (target_bpm : Option ℚ)
    (target_ts_num target_ts_den target_ppq : Option ℕ) (i : ℕ) : List Msg :=
  (if i = 0 then
      [⟨0, .setTempo (newTempoVal mid target_bpm)⟩,
       ⟨0, .timeSignature (finalTsNum mid target_ts_num) (finalTsDen mid target_ts_den)⟩]
    else []) ++
  encodeTrack ((finalPpq mid target_ppq : ℕ) : ℚ) ((newTempoVal mid target_bpm : ℤ) : ℚ)
    0 (sortEvents (trackEvents mid i))

/-- The whole in-memory transform.  When the input has no tracks the source
raises an uncaught `IndexError` at `new_tracks[0].append(...)`, so the result
is `none`; otherwise the new container, with `final_ppq` in its header and one
output track per input track. -/
def remapCore (mid : MidiFile) (target_bpm : Option ℚ)
    (target_ts_num target_ts_den target_ppq : Option ℕ) : Option MidiFile :=
  if mid.tracks.isEmpty then none
  else
    some ⟨finalPpq mid target_ppq,
      (List.range mid.tracks.length).map
        (outTrack mid target_bpm target_ts_num target_ts_den target_ppq)⟩

/-- Externally visible effects of one invocation, in program order. -/
inductive Effect where
  | mkdirOutputParent
  | readInput
  | writeOutput
deriving DecidableEq, Repr

/-- One run of `remap_midi_tempo_meter` as an effect trace plus result.
`parsed` is `none` when `MidiFile(input_path)` raises.  The source creates the
output's parent directories first (lines 21-22), then parses (line 25, exiting
on failure), and saves only at the very end (line 100); a zero-track input dies
with an `IndexError` before the save. -/
def remapRun (parsed : Option MidiFile) (target_bpm : Option ℚ)
    (target_ts_num target_ts_den target_ppq : Option ℕ) :
    List Effect × Option MidiFile :=
  match parsed with
  | none => ([.mkdirOutputParent, .readInput], none)
  | some mid =>
    match remapCore mid target_bpm target_ts_num target_ts_den target_ppq with
    | none => ([.mkdirOutputParent, .readInput], none)
    | some out => ([.mkdirOutputParent, .readInput, .writeOutput], some out)

/-- Running cumulative sums of a list of deltas, starting from `acc`. -/
def cumSums : ℤ → List ℤ → List ℤ
  | _, [] => []
  | acc, x :: xs => (acc + x) :: cumSums (acc + x) xs

/-- Delta-encoding of a list of absolute positions against a running origin. -/
def deltaEncode : ℤ → List ℤ → List ℤ
  | _, [] => []
  | lastT, t :: ts => (t - lastT) :: deltaEncode t ts

/-- The new absolute tick of one timed event. -/
def newAbsTick (mid : MidiFile) (target_bpm : Option ℚ) (target_ppq : Option ℕ)
    (e : TimedEvent) : ℤ :=
  pyRound (second2tick e.sec ((finalPpq mid target_ppq : ℕ) : ℚ)
    ((newTempoVal mid target_bpm : ℤ) : ℚ))

/-- The absolute output tick positions of output track `i`, event by event:
0 for each of the two prepended meta messages of track 0, and the rounded
resequenced tick for every remapped event. -/
def absTicksList (mid : MidiFile) (target_bpm : Option ℚ)
    (target_ppq : Option ℕ) (i : ℕ) : List ℤ :=
  (if i = 0 then [0, 0] else []) ++
    (sortEvents (trackEvents mid i)).map (newAbsTick mid target_bpm target_ppq)

/-- The input of the spec's first concrete scenario: resolution 480, one
track holding a 120 bpm tempo event at tick 0 and a note event at tick 960. -/
def c1In : MidiFile := ⟨480, [[⟨0, .setTempo 500000⟩, ⟨960, .other 0 []⟩]]⟩

/-- The expected output of the first concrete scenario. -/
def c1Out : MidiFile :=
  ⟨480, [[⟨0, .setTempo 1000000⟩, ⟨0, .timeSignature 4 4⟩, ⟨480, .other 0 []⟩]]⟩

/-- The value of the last tempo-control event of a message list, if any
(the spec's description of what the pre-scan keeps). -/
def lastTempoVal : List Msg → Option ℤ
  | [] => none
  | m :: rest =>
    match lastTempoVal rest with
    | some t => some t
    | none => match m.payload with | .setTempo t => some t | _ => none

/-- The numerator/denominator of the last time-signature-control event of a
message list, if any. -/
def lastTimeSigVal : List Msg → Option (ℕ × ℕ)
  | [] => none
  | m :: rest =>
    match lastTimeSigVal rest with
    | some p => some p
    | none => match m.payload with | .timeSignature n d => some (n, d) | _ => none

/-- Absolute input ticks paired with their (non-control) messages, walking a
track's delta times from origin `a`. -/
def absPairsIn : ℤ → List Msg → List (ℤ × Msg)
  | _, [] => []
  | a, m :: rest =>
    if isControl m.payload then absPairsIn (a + m.time) rest
    else (a + m.time, m) :: absPairsIn (a + m.time) rest

/-- Absolute input tick positions of a track's non-control messages. -/
def absTicksIn (a : ℤ) (l : List Msg) : List ℤ := (absPairsIn a l).map Prod.fst

/-- A payload carries no negative tempo value (true of every real MIDI file,
whose tempo field is an unsigned 24-bit integer). -/
def payloadTempoNonneg : Payload → Prop
  | .setTempo v => 0 ≤ v
  | .timeSignature _ _ => True
  | .other _ _ => True

instance : DecidablePred payloadTempoNonneg := fun p =>
  match p with
  | .setTempo v => inferInstanceAs (Decidable (0 ≤ v))
  | .timeSignature _ _ => inferInstanceAs (Decidable True)
  | .other _ _ => inferInstanceAs (Decidable True)

/-- A payload is either not a tempo control, or carries exactly tempo `t`. -/
def payloadTempoIs (t : ℤ) : Payload → Prop
  | .setTempo v => v = t
  | .timeSignature _ _ => True
  | .other _ _ => True

instance (t : ℤ) : DecidablePred (payloadTempoIs t) := fun p =>
  match p with
  | .setTempo v => inferInstanceAs (Decidable (v = t))
  | .timeSignature _ _ => inferInstanceAs (Decidable True)
  | .other _ _ => inferInstanceAs (Decidable True)

/-- A well-formed parsed MIDI file: delta times are nonnegative (they are
unsigned variable-length quantities on disk) and tempo values nonnegative. -/
def ValidMidi (mid : MidiFile) : Prop :=
  ∀ tr ∈ mid.tracks, ∀ m ∈ tr, 0 ≤ m.time ∧ payloadTempoNonneg m.payload

instance (mid : MidiFile) : Decidable (ValidMidi mid) :=
  inferInstanceAs
    (Decidable (∀ tr ∈ mid.tracks, ∀ m ∈ tr, 0 ≤ m.time ∧ payloadTempoNonneg m.payload))

/-- Every tempo-control event of the file carries tempo value `t`. -/
def UniformTempo (mid : MidiFile) (t : ℤ) : Prop :=
  ∀ tr ∈ mid.tracks, ∀ m ∈ tr, payloadTempoIs t m.payload

instance (mid : MidiFile) (t : ℤ) : Decidable (UniformTempo mid t) :=
  inferInstanceAs (Decidable (∀ tr ∈ mid.tracks, ∀ m ∈ tr, payloadTempoIs t m.payload))

/-- An input whose two tempo-control events disagree: 120 bpm governs the
first note (tick 960), 240 bpm the second (tick 1920). -/
def c2In : MidiFile :=
  ⟨480, [[⟨0, .setTempo 500000⟩, ⟨960, .other 0 []⟩,
    ⟨0, .setTempo 250000⟩, ⟨960, .other 1 []⟩]]⟩

/-- A two-track input: track 0 holds only a 240 bpm tempo event, track 1 a
note at tick 480. -/
def c6InA : MidiFile := ⟨480, [[⟨0, .setTempo 250000⟩], [⟨480, .other 0 []⟩]]⟩

/-- The same file with track 0's tempo event removed; track 1 is unchanged. -/
def c6InB : MidiFile := ⟨480, [[], [⟨480, .other 0 []⟩]]⟩

/-- A parseable container with zero tracks. -/
def emptyIn : MidiFile := ⟨480, []⟩

/-- A variant of `c6InA` whose track 0 carries an extra non-control message:
same resolution, same scanned tempo, identical track 1. -/
def c6InC : MidiFile :=
  ⟨480, [[⟨0, .setTempo 250000⟩, ⟨7, .other 5 [3]⟩], [⟨480, .other 0 []⟩]]⟩

/-! ## Basic lemmas -/

theorem ratFloor_eq_floor (q : ℚ) : q.floor = ⌊q⌋ :=
  (Rat.floor_def' q).trans Rat.floor_def.symm

theorem pyRound_eq (q : ℚ) :
    pyRound q =
      if q - ⌊q⌋ < 1/2 then ⌊q⌋
      else if 1/2 < q - ⌊q⌋ then ⌊q⌋ + 1
      else if ⌊q⌋ % 2 = 0 then ⌊q⌋ else ⌊q⌋ + 1 := by
  simp only [pyRound, ratFloor_eq_floor]

theorem floor_le_pyRound (q : ℚ) : ⌊q⌋ ≤ pyRound q := by
  rw [pyRound_eq]
  split
  · exact le_refl _
  · split
    · omega
    · split
      · exact le_refl _
      · omega

theorem pyRound_le_floor_add_one (q : ℚ) : pyRound q ≤ ⌊q⌋ + 1 := by
  rw [pyRound_eq]
  split
  · omega
  · split
    · omega
    · split
      · omega
      · omega

theorem pyRound_nonneg {q : ℚ} (h : 0 ≤ q) : 0 ≤ pyRound q := by
  have hf : (0 : ℤ) ≤ ⌊q⌋ := Int.le_floor.mpr (by exact_mod_cast h)
  exact le_trans hf (floor_le_pyRound q)

theorem pyRound_intCast (n : ℤ) : pyRound ((n : ℤ) : ℚ) = n := by
  rw [pyRound_eq]
  rw [Int.floor_intCast]
  have h : ((n : ℚ) - n) = 0 := by ring
  rw [h]
  norm_num

theorem pyRound_mono {a b : ℚ} (h : a ≤ b) : pyRound a ≤ pyRound b := by
  have hf : ⌊a⌋ ≤ ⌊b⌋ := Int.floor_le_floor h
  rcases lt_or_eq_of_le hf with hlt | heq
  · calc pyRound a ≤ ⌊a⌋ + 1 := pyRound_le_floor_add_one a
      _ ≤ ⌊b⌋ := by omega
      _ ≤ pyRound b := floor_le_pyRound b
  · rw [pyRound_eq, pyRound_eq, ← heq]
    have hab : a - ⌊a⌋ ≤ b - ⌊a⌋ := by linarith
    split
    · split
      · omega
      · split
        · omega
        · split <;> omega
    · rename_i h1
      have h1' : 1/2 ≤ a - ⌊a⌋ := le_of_not_lt h1
      have hb1 : ¬ (b - ⌊a⌋ < 1/2) := by linarith
      rw [if_neg hb1]
      split
      · rename_i h2
        have hb2 : 1/2 < b - ⌊a⌋ := by linarith
        rw [if_pos hb2]
      · rename_i h2
        have ha2 : a - ⌊a⌋ = 1/2 := le_antisymm (le_of_not_lt h2) h1'
        rcases lt_or_eq_of_le hab with hlt2 | heq2
        · have hb2 : 1/2 < b - ⌊a⌋ := by linarith
          rw [if_pos hb2]
          split
          · omega
          · omega
        · rw [← heq2, if_neg h2]

theorem cumSums_deltaEncode (l : List ℤ) : ∀ a, cumSums a (deltaEncode a l) = l := by
  induction l with
  | nil => intro a; rfl
  | cons x xs ih =>
    intro a
    simp only [deltaEncode, cumSums]
    rw [add_sub_cancel]
    rw [ih x]

theorem encodeTrack_map_time (ppq tv : ℚ) :
    ∀ (l : List TimedEvent) (a : ℤ),
      (encodeTrack ppq tv a l).map Msg.time =
        deltaEncode a (l.map (fun e => pyRound (second2tick e.sec ppq tv))) := by
  intro l
  induction l with
  | nil => intro a; rfl
  | cons e rest ih =>
    intro a
    simp only [encodeTrack, List.map_cons, deltaEncode]
    exact congrArg _ (ih _)

theorem encodeTrack_map_payload (ppq tv : ℚ) :
    ∀ (l : List TimedEvent) (a : ℤ),
      (encodeTrack ppq tv a l).map Msg.payload = l.map (fun e => e.msg.payload) := by
  intro l
  induction l with
  | nil => intro a; rfl
  | cons e rest ih =>
    intro a
    simp only [encodeTrack, List.map_cons]
    exact congrArg _ (ih _)

/-! ## Conversion-stage lemmas -/

theorem convertGo_track (ppq : ℚ) (i : ℕ) :
    ∀ (l : List Msg) (a t : ℤ), ∀ e ∈ convertGo ppq i a t l, e.track = i := by
  intro l
  induction l with
  | nil => intro a t e he; simp [convertGo] at he
  | cons m rest ih =>
    intro a t e he
    match hp : m.payload with
    | .setTempo v =>
      rw [convertGo, hp] at he
      exact ih _ _ e he
    | .timeSignature n d =>
      rw [convertGo, hp] at he
      exact ih _ _ e he
    | .other k ps =>
      rw [convertGo, hp] at he
      rcases List.mem_cons.mp he with h1 | h2
      · rw [h1]
      · exact ih _ _ e h2

theorem convertGo_map_msg (ppq : ℚ) (i : ℕ) :
    ∀ (l : List Msg) (a t : ℤ),
      (convertGo ppq i a t l).map TimedEvent.msg =
        l.filter (fun m => !isControl m.payload) := by
  intro l
  induction l with
  | nil => intro a t; rfl
  | cons m rest ih =>
    intro a t
    match hp : m.payload with
    | .setTempo v =>
      rw [convertGo, hp, List.filter_cons_of_neg (by simp [hp, isControl])]
      exact ih _ _
    | .timeSignature n d =>
      rw [convertGo, hp, List.filter_cons_of_neg (by simp [hp, isControl])]
      exact ih _ _
    | .other k ps =>
      rw [convertGo, hp, List.filter_cons_of_pos (by simp [hp, isControl])]
      simp only [List.map_cons]
      exact congrArg _ (ih _ _)

theorem convertGo_sec_nonneg (ppq : ℚ) (i : ℕ) (hppq : 0 ≤ ppq) :
    ∀ (l : List Msg) (a t : ℤ), 0 ≤ a → 0 ≤ t →
      (∀ m ∈ l, 0 ≤ m.time ∧ payloadTempoNonneg m.payload) →
      ∀ e ∈ convertGo ppq i a t l, 0 ≤ e.sec := by
  intro l
  induction l with
  | nil => intro a t _ _ _ e he; simp [convertGo] at he
  | cons m rest ih =>
    intro a t ha ht hl e he
    have hm := hl m (List.mem_cons_self m rest)
    have hrest : ∀ m' ∈ rest, 0 ≤ m'.time ∧ payloadTempoNonneg m'.payload :=
      fun m' hm' => hl m' (List.mem_cons_of_mem m hm')
    have ha' : (0 : ℤ) ≤ a + m.time := by
      have := hm.1
      omega
    match hp : m.payload with
    | .setTempo v =>
      rw [convertGo, hp] at he
      have hv : 0 ≤ v := by
        have := hm.2
        rw [hp] at this
        exact this
      exact ih _ _ ha' hv hrest e he
    | .timeSignature n d =>
      rw [convertGo, hp] at he
      exact ih _ _ ha' ht hrest e he
    | .other k ps =>
      rw [convertGo, hp] at he
      rcases List.mem_cons.mp he with h1 | h2
      · rw [h1]
        show (0 : ℚ) ≤ tick2second ((a + m.time : ℤ) : ℚ) ppq (t : ℚ)
        unfold tick2second
        have h1 : (0 : ℚ) ≤ ((a + m.time : ℤ) : ℚ) := by exact_mod_cast ha'
        have h2 : (0 : ℚ) ≤ (t : ℚ) := by exact_mod_cast ht
        exact mul_nonneg h1 (div_nonneg (div_nonneg h2 (by norm_num)) hppq)
      · exact ih _ _ ha' ht hrest e h2

theorem convertAll_track_ge (ppq : ℚ) (t0 : ℤ) :
    ∀ (trs : List (List Msg)) (j : ℕ), ∀ e ∈ convertAll ppq t0 j trs, j ≤ e.track := by
  intro trs
  induction trs with
  | nil => intro j e he; simp [convertAll] at he
  | cons tr rest ih =>
    intro j e he
    rw [convertAll] at he
    rcases List.mem_append.mp he with h1 | h2
    · exact le_of_eq (convertGo_track ppq j tr 0 t0 e h1).symm
    · exact le_trans (Nat.le_succ j) (ih (j + 1) e h2)

theorem convertAll_filter (ppq : ℚ) (t0 : ℤ) :
    ∀ (trs : List (List Msg)) (j k : ℕ) (tr : List Msg), trs[k]? = some tr →
      (convertAll ppq t0 j trs).filter (fun e => e.track == j + k) =
        convertGo ppq (j + k) 0 t0 tr := by
  intro trs
  induction trs with
  | nil => intro j k tr h; simp at h
  | cons tr0 rest ih =>
    intro j k tr h
    rw [convertAll, List.filter_append]
    match k with
    | 0 =>
      simp only [List.getElem?_cons_zero, Option.some.injEq] at h
      subst h
      have h1 : (convertGo ppq j 0 t0 tr0).filter (fun e => e.track == j + 0) =
          convertGo ppq j 0 t0 tr0 := by
        apply List.filter_eq_self.mpr
        intro e he
        have := convertGo_track ppq j tr0 0 t0 e he
        simp [this]
      have h2 : (convertAll ppq t0 (j + 1) rest).filter (fun e => e.track == j + 0) = [] := by
        apply List.filter_eq_nil_iff.mpr
        intro e he
        have := convertAll_track_ge ppq t0 rest (j + 1) e he
        simp only [beq_iff_eq]
        omega
      rw [h1, h2, List.append_nil]
      have : j + 0 = j := by omega
      rw [this]
    | k' + 1 =>
      simp only [List.getElem?_cons_succ] at h
      have h1 : (convertGo ppq j 0 t0 tr0).filter (fun e => e.track == j + (k' + 1)) = [] := by
        apply List.filter_eq_nil_iff.mpr
        intro e he
        have := convertGo_track ppq j tr0 0 t0 e he
        simp only [beq_iff_eq, this]
        omega
      have h2 := ih (j + 1) k' tr h
      have harith : j + 1 + k' = j + (k' + 1) := by omega
      rw [harith] at h2
      rw [h1, List.nil_append, h2]

theorem trackEvents_eq (mid : MidiFile) (i : ℕ) (tr : List Msg)
    (h : mid.tracks[i]? = some tr) :
    trackEvents mid i =
      convertGo (mid.ticks_per_beat : ℚ) i 0 (origTempoVal mid) tr := by
  have := convertAll_filter (mid.ticks_per_beat : ℚ) (origTempoVal mid) mid.tracks 0 i tr h
  simp only [Nat.zero_add] at this
  exact this

/-! ## Sorting lemmas -/

theorem filter_orderedInsert_of_eq (a : TimedEvent) (c : ℚ) (ha : a.sec = c) :
    ∀ l : List TimedEvent,
      (List.orderedInsert secLe a l).filter (fun e => decide (e.sec = c)) =
        a :: l.filter (fun e => decide (e.sec = c)) := by
  intro l
  induction l with
  | nil => simp [List.orderedInsert, ha]
  | cons b l ih =>
    rw [List.orderedInsert]
    by_cases hab : secLe a b
    · rw [if_pos hab]
      simp [List.filter_cons, ha]
    · rw [if_neg hab]
      simp only [secLe, not_le] at hab
      have hb : b.sec ≠ c := ne_of_lt (ha ▸ hab)
      rw [List.filter_cons_of_neg (by simp [hb]), ih,
        List.filter_cons_of_neg (by simp [hb])]

theorem filter_orderedInsert_of_ne (a : TimedEvent) (c : ℚ) (ha : a.sec ≠ c) :
    ∀ l : List TimedEvent,
      (List.orderedInsert secLe a l).filter (fun e => decide (e.sec = c)) =
        l.filter (fun e => decide (e.sec = c)) := by
  intro l
  induction l with
  | nil => simp [List.orderedInsert, ha]
  | cons b l ih =>
    rw [List.orderedInsert]
    by_cases hab : secLe a b
    · rw [if_pos hab]
      simp [List.filter_cons, ha]
    · rw [if_neg hab]
      simp only [List.filter_cons, ih]

theorem sortEvents_filter_sec (c : ℚ) :
    ∀ l : List TimedEvent,
      (sortEvents l).filter (fun e => decide (e.sec = c)) =
        l.filter (fun e => decide (e.sec = c)) := by
  intro l
  induction l with
  | nil => rfl
  | cons a l ih =>
    simp only [sortEvents, List.insertionSort] at ih ⊢
    by_cases ha : a.sec = c
    · rw [filter_orderedInsert_of_eq a c ha, ih,
        List.filter_cons_of_pos (by simp [ha])]
    · rw [filter_orderedInsert_of_ne a c ha, ih,
        List.filter_cons_of_neg (by simp [ha])]

theorem sortEvents_sorted (l : List TimedEvent) : List.Sorted secLe (sortEvents l) :=
  List.sorted_insertionSort secLe l

theorem sortEvents_perm (l : List TimedEvent) : (sortEvents l).Perm l :=
  List.perm_insertionSort secLe l

theorem second2tick_mono {s1 s2 : ℚ} (ppq tv : ℚ) (hs : s1 ≤ s2)
    (hppq : 0 ≤ ppq) (htv : 0 ≤ tv) :
    second2tick s1 ppq tv ≤ second2tick s2 ppq tv := by
  unfold second2tick
  rcases eq_or_lt_of_le
      (div_nonneg (div_nonneg htv (by norm_num : (0:ℚ) ≤ 1000000)) hppq) with hc | hc
  · rw [← hc, div_zero, div_zero]
  · exact (div_le_div_iff_of_pos_right hc).mpr hs

theorem second2tick_nonneg {s : ℚ} (ppq tv : ℚ) (hs : 0 ≤ s)
    (hppq : 0 ≤ ppq) (htv : 0 ≤ tv) : 0 ≤ second2tick s ppq tv := by
  unfold second2tick
  exact div_nonneg hs (div_nonneg (div_nonneg htv (by norm_num : (0:ℚ) ≤ 1000000)) hppq)

/-! ## Scan lemmas -/

theorem scanMsg_bpm_nonneg (s : ScanState) (m : Msg) (hs : 0 ≤ s.bpm)
    (hm : payloadTempoNonneg m.payload) : 0 ≤ (scanMsg s m).bpm := by
  match hp : m.payload with
  | .setTempo v =>
    rw [scanMsg, hp]
    have hv : (0 : ℚ) ≤ (v : ℚ) := by
      rw [hp] at hm
      exact_mod_cast hm
    exact div_nonneg (by norm_num) hv
  | .timeSignature n d => rw [scanMsg, hp]; exact hs
  | .other k ps => rw [scanMsg, hp]; exact hs

theorem foldl_scanMsg_bpm_nonneg :
    ∀ (l : List Msg) (s : ScanState), 0 ≤ s.bpm →
      (∀ m ∈ l, payloadTempoNonneg m.payload) → 0 ≤ (l.foldl scanMsg s).bpm := by
  intro l
  induction l with
  | nil => intro s hs _; exact hs
  | cons m rest ih =>
    intro s hs hl
    rw [List.foldl_cons]
    exact ih _ (scanMsg_bpm_nonneg s m hs (hl m (List.mem_cons_self m rest)))
      (fun m' hm' => hl m' (List.mem_cons_of_mem m hm'))

theorem scanFile_bpm_nonneg (mid : MidiFile)
    (h : ∀ tr ∈ mid.tracks, ∀ m ∈ tr, payloadTempoNonneg m.payload) :
    0 ≤ (scanFile mid).bpm := by
  rw [scanFile]
  have hgen : ∀ (trs : List (List Msg)) (s : ScanState), 0 ≤ s.bpm →
      (∀ tr ∈ trs, ∀ m ∈ tr, payloadTempoNonneg m.payload) →
      0 ≤ (trs.foldl (fun s track => track.foldl scanMsg s) s).bpm := by
    intro trs
    induction trs with
    | nil => intro s hs _; exact hs
    | cons tr rest ih =>
      intro s hs hl
      rw [List.foldl_cons]
      exact ih _ (foldl_scanMsg_bpm_nonneg tr s hs (hl tr (List.mem_cons_self tr rest)))
        (fun tr' htr' => hl tr' (List.mem_cons_of_mem tr htr'))
  exact hgen mid.tracks ⟨120, 4, 4⟩ (by norm_num) h

theorem origTempoVal_nonneg (mid : MidiFile)
    (h : ∀ tr ∈ mid.tracks, ∀ m ∈ tr, payloadTempoNonneg m.payload) :
    0 ≤ origTempoVal mid :=
  pyRound_nonneg (div_nonneg (by norm_num) (scanFile_bpm_nonneg mid h))

/-! ## Output-shape lemmas -/

theorem remapCore_eq_some (mid : MidiFile) (tb : Option ℚ) (tn td tp : Option ℕ)
    (out : MidiFile) (h : remapCore mid tb tn td tp = some out) :
    out = ⟨finalPpq mid tp,
      (List.range mid.tracks.length).map (outTrack mid tb tn td tp)⟩ := by
  by_cases he : mid.tracks.isEmpty
  · rw [remapCore, if_pos he] at h
    exact absurd h (by simp)
  · rw [remapCore, if_neg he] at h
    exact (Option.some.injEq _ _ ▸ h).symm

theorem outTrack_map_time (mid : MidiFile) (tb : Option ℚ) (tn td tp : Option ℕ) (i : ℕ) :
    (outTrack mid tb tn td tp i).map Msg.time =
      (if i = 0 then [0, 0] else []) ++
        deltaEncode 0 ((sortEvents (trackEvents mid i)).map (newAbsTick mid tb tp)) := by
  rw [outTrack, List.map_append, encodeTrack_map_time]
  congr 1
  · by_cases h0 : i = 0
    · rw [if_pos h0, if_pos h0]; rfl
    · rw [if_neg h0, if_neg h0]; rfl

/-- C3: within every track of the produced output, the running sums of the
delta times reproduce, event by event, the absolute output tick positions
(0 for the two injected meta messages, the rounded resequenced tick for every
remapped event). -/
theorem c3_conservation (mid : MidiFile) (tb : Option ℚ) (tn td tp : Option ℕ)
    (out : MidiFile) (h : remapCore mid tb tn td tp = some out)
    (i : ℕ) (hi : i < out.tracks.length) :
    cumSums 0 ((out.tracks.get ⟨i, hi⟩).map Msg.time) = absTicksList mid tb tp i := by
  have hout := remapCore_eq_some mid tb tn td tp out h
  subst hout
  simp only [List.get_eq_getElem] at hi ⊢
  rw [List.getElem_map, List.getElem_range]
  rw [outTrack_map_time, absTicksList]
  by_cases h0 : i = 0
  · rw [if_pos h0]
    show cumSums 0 (0 :: 0 :: deltaEncode 0 _) = 0 :: 0 :: _
    rw [cumSums, cumSums]
    norm_num
    exact cumSums_deltaEncode _ 0
  · rw [if_neg h0]
    simp only [List.nil_append]
    exact cumSums_deltaEncode _ 0

theorem convertAll_sec_nonneg (ppq : ℚ) (hppq : 0 ≤ ppq) (t0 : ℤ) (ht0 : 0 ≤ t0) :
    ∀ (trs : List (List Msg)) (j : ℕ),
      (∀ tr ∈ trs, ∀ m ∈ tr, 0 ≤ m.time ∧ payloadTempoNonneg m.payload) →
      ∀ e ∈ convertAll ppq t0 j trs, 0 ≤ e.sec := by
  intro trs
  induction trs with
  | nil => intro j _ e he; simp [convertAll] at he
  | cons tr rest ih =>
    intro j hl e he
    rw [convertAll] at he
    rcases List.mem_append.mp he with h1 | h2
    · exact convertGo_sec_nonneg ppq j hppq tr 0 t0 (le_refl 0) ht0
        (hl tr (List.mem_cons_self tr rest)) e h1
    · exact ih (j + 1) (fun tr' htr' => hl tr' (List.mem_cons_of_mem tr htr')) e h2

theorem allEvents_sec_nonneg (mid : MidiFile) (hval : ValidMidi mid) :
    ∀ e ∈ allEvents mid, 0 ≤ e.sec := by
  intro e he
  exact convertAll_sec_nonneg (mid.ticks_per_beat : ℚ) (Nat.cast_nonneg _)
    (origTempoVal mid)
    (origTempoVal_nonneg mid (fun tr htr m hm => (hval tr htr m hm).2))
    mid.tracks 0 hval e he

theorem newAbsTick_nonneg (mid : MidiFile) (tb : Option ℚ) (tp : Option ℕ)
    (hv : 0 ≤ newTempoVal mid tb) (e : TimedEvent) (he : 0 ≤ e.sec) :
    0 ≤ newAbsTick mid tb tp e :=
  pyRound_nonneg (second2tick_nonneg _ _ he (Nat.cast_nonneg _) (by exact_mod_cast hv))

theorem newAbsTick_mono (mid : MidiFile) (tb : Option ℚ) (tp : Option ℕ)
    (hv : 0 ≤ newTempoVal mid tb) {a b : TimedEvent} (hab : secLe a b) :
    newAbsTick mid tb tp a ≤ newAbsTick mid tb tp b :=
  pyRound_mono (second2tick_mono _ _ hab (Nat.cast_nonneg _) (by exact_mod_cast hv))

/-- C4: the absolute output tick positions of every output track are
non-decreasing, and the per-track reordering that produces them is a stable
sort on absolute seconds: events with any fixed seconds value keep their
original relative order. -/
theorem c4_ordering (mid : MidiFile) (tb : Option ℚ) (tp : Option ℕ)
    (hval : ValidMidi mid) (hv : 0 ≤ newTempoVal mid tb) (i : ℕ) :
    List.Sorted (fun x y : ℤ => x ≤ y) (absTicksList mid tb tp i) ∧
    ∀ c : ℚ, (sortEvents (trackEvents mid i)).filter (fun e => decide (e.sec = c)) =
      (trackEvents mid i).filter (fun e => decide (e.sec = c)) := by
  constructor
  · rw [absTicksList]
    have hmap : List.Sorted (fun x y : ℤ => x ≤ y)
        ((sortEvents (trackEvents mid i)).map (newAbsTick mid tb tp)) :=
      List.Pairwise.map _ (fun a b hab => newAbsTick_mono mid tb tp hv hab)
        (sortEvents_sorted (trackEvents mid i))
    by_cases h0 : i = 0
    · rw [if_pos h0]
      apply List.pairwise_append.mpr
      refine ⟨by norm_num, hmap, ?_⟩
      intro a ha b hb
      have ha0 : a = 0 := by
        rcases List.mem_cons.mp ha with h | h
        · exact h
        · rcases List.mem_cons.mp h with h' | h'
          · exact h'
          · simp at h'
      rcases List.mem_map.mp hb with ⟨e, he, hbe⟩
      have hsec : 0 ≤ e.sec := by
        have hmem : e ∈ trackEvents mid i :=
          (List.Perm.mem_iff (sortEvents_perm (trackEvents mid i))).mp he
        exact allEvents_sec_nonneg mid hval e (List.mem_filter.mp hmem).1
      rw [ha0, ← hbe]
      exact newAbsTick_nonneg mid tb tp hv e hsec
    · rw [if_neg h0, List.nil_append]
      exact hmap
  · exact fun c => sortEvents_filter_sec c (trackEvents mid i)

/-- Witness for C4 at the concrete scenario input. -/
theorem c4_witness :
    ValidMidi c1In ∧ 0 ≤ newTempoVal c1In (some 60) ∧
    (List.Sorted (fun x y : ℤ => x ≤ y) (absTicksList c1In (some 60) none 0) ∧
     ∀ c : ℚ, (sortEvents (trackEvents c1In 0)).filter (fun e => decide (e.sec = c)) =
       (trackEvents c1In 0).filter (fun e => decide (e.sec = c))) :=
  ⟨by decide, by with_unfolding_all decide,
    c4_ordering c1In (some 60) none (by decide) (by with_unfolding_all decide) 0⟩

/-! ## Concrete evaluation of the first scenario -/

set_option maxRecDepth 10000 in
theorem c1_sorted : sortEvents (trackEvents c1In 0) = [⟨1, ⟨960, .other 0 []⟩, 0⟩] := by
  with_unfolding_all decide

theorem c1_ppq : finalPpq c1In none = 480 := by with_unfolding_all decide

theorem c1_tempo : newTempoVal c1In (some 60) = 1000000 := by with_unfolding_all decide

theorem c1_tsnum : finalTsNum c1In none = 4 := by with_unfolding_all decide

theorem c1_tsden : finalTsDen c1In none = 4 := by with_unfolding_all decide

theorem c1_encode :
    encodeTrack ((480 : ℕ) : ℚ) ((1000000 : ℤ) : ℚ) 0 [⟨1, ⟨960, .other 0 []⟩, 0⟩] =
      [⟨480, .other 0 []⟩] := by
  with_unfolding_all decide

theorem c1_outTrack :
    outTrack c1In (some 60) none none none 0 =
      [⟨0, .setTempo 1000000⟩, ⟨0, .timeSignature 4 4⟩, ⟨480, .other 0 []⟩] := by
  rw [outTrack, c1_sorted, c1_ppq, c1_tempo, c1_tsnum, c1_tsden, if_pos rfl, c1_encode]
  rfl

theorem c1_remap : remapCore c1In (some 60) none none none = some c1Out := by
  rw [remapCore, if_neg (by decide : ¬ (c1In.tracks.isEmpty = true))]
  have hlen : c1In.tracks.length = 1 := rfl
  have hrange : List.range 1 = [0] := rfl
  rw [hlen, hrange, List.map_cons, List.map_nil, c1_outTrack, c1_ppq]
  rfl

/-- C1: on the input with resolution 480, a 120 bpm tempo event at tick 0 and
a note event at tick 960, remapping to 60 bpm with the resolution unchanged
produces the note at absolute output tick 480 (deltas 0, 0, 480), each new
absolute tick being the rounded value of
`abs_seconds * target_resolution / (target_tempo_microseconds_per_beat / 10^6)`. -/
theorem c1_concrete_scenario :
    remapCore c1In (some 60) none none none = some c1Out ∧
    absTicksList c1In (some 60) none 0 = [0, 0, 480] := by
  refine ⟨c1_remap, ?_⟩
  rw [absTicksList, c1_sorted]
  with_unfolding_all decide

/-! ## Control messages in the output -/

theorem convertGo_not_control (ppq : ℚ) (i : ℕ) (l : List Msg) (a t : ℤ) :
    ∀ e ∈ convertGo ppq i a t l, isControl e.msg.payload = false := by
  intro e he
  have hm : e.msg ∈ (convertGo ppq i a t l).map TimedEvent.msg :=
    List.mem_map_of_mem TimedEvent.msg he
  rw [convertGo_map_msg] at hm
  have := (List.mem_filter.mp hm).2
  simpa using this

theorem convertAll_not_control (ppq : ℚ) (t0 : ℤ) :
    ∀ (trs : List (List Msg)) (j : ℕ),
      ∀ e ∈ convertAll ppq t0 j trs, isControl e.msg.payload = false := by
  intro trs
  induction trs with
  | nil => intro j e he; simp [convertAll] at he
  | cons tr rest ih =>
    intro j e he
    rcases List.mem_append.mp (by rw [convertAll] at he; exact he) with h1 | h2
    · exact convertGo_not_control ppq j tr 0 t0 e h1
    · exact ih (j + 1) e h2

theorem encodeTrack_not_control (mid : MidiFile) (ppq tv : ℚ) (a : ℤ) (i : ℕ) :
    ∀ m ∈ encodeTrack ppq tv a (sortEvents (trackEvents mid i)),
      isControl m.payload = false := by
  intro m hm
  have hp : m.payload ∈ (encodeTrack ppq tv a (sortEvents (trackEvents mid i))).map
      Msg.payload := List.mem_map_of_mem Msg.payload hm
  rw [encodeTrack_map_payload] at hp
  rcases List.mem_map.mp hp with ⟨e, he, hpe⟩
  have hmem : e ∈ trackEvents mid i :=
    (List.Perm.mem_iff (sortEvents_perm (trackEvents mid i))).mp he
  have hall : e ∈ allEvents mid := (List.mem_filter.mp hmem).1
  rw [← hpe]
  exact convertAll_not_control (mid.ticks_per_beat : ℚ) (origTempoVal mid) mid.tracks 0 e hall

/-- C5: the produced output opens its first track with exactly the injected
tempo-control and time-signature-control messages, both at tick 0, before
every other event; no other message of any output track is a tempo or
time-signature control (in particular all input control events are gone). -/
theorem c5_single_controls (mid : MidiFile) (tb : Option ℚ) (tn td tp : Option ℕ)
    (out : MidiFile) (h : remapCore mid tb tn td tp = some out) :
    (∃ rest, out.tracks[0]? = some
        (⟨0, .setTempo (newTempoVal mid tb)⟩ ::
         ⟨0, .timeSignature (finalTsNum mid tn) (finalTsDen mid td)⟩ :: rest) ∧
       ∀ m ∈ rest, isControl m.payload = false) ∧
    (∀ i, i ≠ 0 → ∀ tr, out.tracks[i]? = some tr →
       ∀ m ∈ tr, isControl m.payload = false) := by
  have hne : ¬ mid.tracks.isEmpty := by
    intro he
    rw [remapCore, if_pos he] at h
    exact absurd h (by simp)
  have hne' : mid.tracks ≠ [] := fun he => hne (by simp [he])
  have hlen : 0 < mid.tracks.length := List.length_pos.mpr hne'
  have hout := remapCore_eq_some mid tb tn td tp out h
  subst hout
  constructor
  · refine ⟨encodeTrack ((finalPpq mid tp : ℕ) : ℚ) ((newTempoVal mid tb : ℤ) : ℚ) 0
      (sortEvents (trackEvents mid 0)), ?_, ?_⟩
    · show (List.map (outTrack mid tb tn td tp) (List.range mid.tracks.length))[0]? = _
      rw [List.getElem?_map, List.getElem?_range hlen]
      simp only [Option.map_some']
      rw [outTrack, if_pos rfl]
      rfl
    · exact encodeTrack_not_control mid _ _ 0 0
  · intro i hi tr htr m hm
    simp only [List.getElem?_map] at htr
    rcases Nat.lt_or_ge i mid.tracks.length with hlt | hge
    · rw [List.getElem?_range hlt] at htr
      simp only [Option.map_some'] at htr
      have htr' : outTrack mid tb tn td tp i = tr := by
        exact Option.some.inj htr
      rw [← htr', outTrack, if_neg hi, List.nil_append] at hm
      exact encodeTrack_not_control mid _ _ 0 i m hm
    · rw [List.getElem?_eq_none (by simpa using hge)] at htr
      simp at htr

/-- Witness for C5 at the concrete scenario input. -/
theorem c5_witness :
    remapCore c1In (some 60) none none none = some c1Out ∧
    ((∃ rest, c1Out.tracks[0]? = some
        (⟨0, .setTempo (newTempoVal c1In (some 60))⟩ ::
         ⟨0, .timeSignature (finalTsNum c1In none) (finalTsDen c1In none)⟩ :: rest) ∧
       ∀ m ∈ rest, isControl m.payload = false) ∧
     (∀ i, i ≠ 0 → ∀ tr, c1Out.tracks[i]? = some tr →
        ∀ m ∈ tr, isControl m.payload = false)) :=
  ⟨c1_remap, c5_single_controls c1In (some 60) none none none c1Out c1_remap⟩

/-- C8: every remapped event of the output carries the payload of an input
event unchanged: dropping the two injected meta messages of track 0, the
payload sequence of each output track is a permutation of the payloads of the
corresponding input track's non-control messages. -/
theorem c8_payloads_preserved (mid : MidiFile) (tb : Option ℚ) (tn td tp : Option ℕ)
    (out : MidiFile) (h : remapCore mid tb tn td tp = some out)
    (i : ℕ) (tr itr : List Msg) (ho : out.tracks[i]? = some tr)
    (hi : mid.tracks[i]? = some itr) :
    List.Perm ((tr.drop (if i = 0 then 2 else 0)).map Msg.payload)
      ((itr.filter (fun m => !isControl m.payload)).map Msg.payload) := by
  have hout := remapCore_eq_some mid tb tn td tp out h
  subst hout
  have hilt : i < mid.tracks.length := by
    by_contra hge
    rw [List.getElem?_eq_none (by simpa using hge)] at hi
    exact absurd hi (by simp)
  have htr : tr = outTrack mid tb tn td tp i := by
    have : (List.map (outTrack mid tb tn td tp) (List.range mid.tracks.length))[i]? =
        some (outTrack mid tb tn td tp i) := by
      rw [List.getElem?_map, List.getElem?_range hilt]
      rfl
    rw [this] at ho
    exact (Option.some.inj ho).symm
  subst htr
  have hdrop : (outTrack mid tb tn td tp i).drop (if i = 0 then 2 else 0) =
      encodeTrack ((finalPpq mid tp : ℕ) : ℚ) ((newTempoVal mid tb : ℤ) : ℚ) 0
        (sortEvents (trackEvents mid i)) := by
    rw [outTrack]
    by_cases h0 : i = 0
    · rw [if_pos h0, if_pos h0]
      rfl
    · rw [if_neg h0, if_neg h0, List.nil_append, List.drop_zero]
  rw [hdrop, encodeTrack_map_payload]
  have hperm : List.Perm
      ((sortEvents (trackEvents mid i)).map (fun e => e.msg.payload))
      ((trackEvents mid i).map (fun e => e.msg.payload)) :=
    List.Perm.map _ (sortEvents_perm (trackEvents mid i))
  have heq : (trackEvents mid i).map (fun e => e.msg.payload) =
      ((itr.filter (fun m => !isControl m.payload)).map Msg.payload) := by
    rw [trackEvents_eq mid i itr hi]
    have hmm : (convertGo (mid.ticks_per_beat : ℚ) i 0 (origTempoVal mid) itr).map
        (fun e => e.msg.payload) =
        ((convertGo (mid.ticks_per_beat : ℚ) i 0 (origTempoVal mid) itr).map
          TimedEvent.msg).map Msg.payload := by
      rw [List.map_map]
      rfl
    rw [hmm, convertGo_map_msg]
  rw [← heq]
  exact hperm

/-- Witness for C8 at the concrete scenario input. -/
theorem c8_witness :
    remapCore c1In (some 60) none none none = some c1Out ∧
    c1Out.tracks[0]? = some
      [⟨0, .setTempo 1000000⟩, ⟨0, .timeSignature 4 4⟩, ⟨480, .other 0 []⟩] ∧
    c1In.tracks[0]? = some [⟨0, .setTempo 500000⟩, ⟨960, .other 0 []⟩] ∧
    List.Perm
      (([(⟨0, .setTempo 1000000⟩ : Msg), ⟨0, .timeSignature 4 4⟩,
          ⟨480, .other 0 []⟩].drop (if 0 = 0 then 2 else 0)).map Msg.payload)
      (([(⟨0, .setTempo 500000⟩ : Msg), ⟨960, .other 0 []⟩].filter
          (fun m => !isControl m.payload)).map Msg.payload) :=
  ⟨c1_remap, by decide, by decide,
    c8_payloads_preserved c1In (some 60) none none none c1Out c1_remap 0 _ _
      (by decide) (by decide)⟩

/-- C10: a successfully parsed input with zero tracks makes the transform fail
(the prepend of the global tempo event indexes an empty track list), with no
output written; with at least one track the transform produces an output. -/
theorem c10_empty_tracks (mid : MidiFile) (tb : Option ℚ) (tn td tp : Option ℕ) :
    (mid.tracks = [] →
      remapCore mid tb tn td tp = none ∧
      (remapRun (some mid) tb tn td tp).1 = [.mkdirOutputParent, .readInput]) ∧
    (mid.tracks ≠ [] → (remapCore mid tb tn td tp).isSome = true) := by
  constructor
  · intro he
    have h1 : remapCore mid tb tn td tp = none := by
      rw [remapCore, if_pos (by simp [he])]
    exact ⟨h1, by simp [remapRun, h1]⟩
  · intro hne
    rw [remapCore, if_neg (by simpa using hne)]
    rfl

/-- Witness for C10: the zero-track container fails, the one-track input
succeeds. -/
theorem c10_witness :
    (emptyIn.tracks = [] ∧
      remapCore emptyIn none none none none = none ∧
      (remapRun (some emptyIn) none none none none).1 =
        [.mkdirOutputParent, .readInput]) ∧
    (c1In.tracks ≠ [] ∧ (remapCore c1In (some 60) none none none).isSome = true) :=
  ⟨⟨rfl, ((c10_empty_tracks emptyIn none none none none).1 rfl).1,
     ((c10_empty_tracks emptyIn none none none none).1 rfl).2⟩,
   ⟨by decide, (c10_empty_tracks c1In (some 60) none none none).2 (by decide)⟩⟩

/-- C9 counterexample: when parsing fails, the run's effect trace still begins
with the creation of the output's parent directories — directory creation is
not part of the output-writing stage, it precedes the input parse. -/
theorem c9_counterexample :
    (remapRun none none none none none).1 =
      [Effect.mkdirOutputParent, Effect.readInput] ∧
    Effect.mkdirOutputParent ∈ (remapRun none none none none none).1 ∧
    Effect.writeOutput ∉ (remapRun none none none none none).1 := by
  refine ⟨rfl, by decide, by decide⟩

/-- C9 amended: every run first creates the output's parent directories, then
reads the input; the output file is written (last) exactly when parsing and
the transform succeed, so nothing is written at the output path when parsing
fails. -/
theorem c9_effect_order (parsed : Option MidiFile) (tb : Option ℚ)
    (tn td tp : Option ℕ) :
    (remapRun parsed tb tn td tp).1 =
      [Effect.mkdirOutputParent, Effect.readInput] ++
        (if ((remapRun parsed tb tn td tp).2).isSome then [Effect.writeOutput]
         else []) ∧
    (parsed = none → Effect.writeOutput ∉ (remapRun parsed tb tn td tp).1) := by
  rcases parsed with _ | mid
  · exact ⟨rfl, fun _ => by simp [remapRun]⟩
  · rcases hc : remapCore mid tb tn td tp with _ | out
    · refine ⟨by simp [remapRun, hc], fun h => by simp at h⟩
    · refine ⟨by simp [remapRun, hc], fun h => by simp at h⟩

/-- Witness for the amended C9 at a failing parse. -/
theorem c9_witness :
    Effect.writeOutput ∉ (remapRun none none none none none).1 :=
  (c9_effect_order none none none none none).2 rfl

/-! ## Track independence (C6) -/

theorem c6A_events : allEvents c6InA = [⟨1/4, ⟨480, .other 0 []⟩, 1⟩] := by
  with_unfolding_all decide

theorem c6B_events : allEvents c6InB = [⟨1/2, ⟨480, .other 0 []⟩, 1⟩] := by
  with_unfolding_all decide

theorem c6A_track1 : trackEvents c6InA 1 = [⟨1/4, ⟨480, .other 0 []⟩, 1⟩] := by
  rw [trackEvents, c6A_events]
  with_unfolding_all decide

theorem c6B_track1 : trackEvents c6InB 1 = [⟨1/2, ⟨480, .other 0 []⟩, 1⟩] := by
  rw [trackEvents, c6B_events]
  with_unfolding_all decide

/-- C6 counterexample: `c6InA` and `c6InB` have identical track 1 (one note at
tick 480, no tempo control of its own), yet the tempo-control event sitting in
track 0 of `c6InA` changes track 1's computed absolute seconds from 1/2 to
1/4.  A tempo-control event in one track therefore does affect the
absolute-seconds computation of events in another track (through the scanned
original tempo). -/
theorem c6_counterexample :
    c6InA.tracks[1]? = c6InB.tracks[1]? ∧
    (trackEvents c6InA 1).map TimedEvent.sec = [1/4] ∧
    (trackEvents c6InB 1).map TimedEvent.sec = [1/2] ∧
    trackEvents c6InA 1 ≠ trackEvents c6InB 1 := by
  refine ⟨by decide, ?_, ?_, ?_⟩
  · rw [c6A_track1]
    with_unfolding_all decide
  · rw [c6B_track1]
    with_unfolding_all decide
  · rw [c6A_track1, c6B_track1]
    with_unfolding_all decide

/-- C6 amended: apart from its contribution to the scanned original tempo that
seeds every track's context, one track's content never affects another track's
conversion: for two containers with equal resolution and equal scanned
original tempo, a track with identical messages converts to identical
absolute-seconds events, its tempo context being updated only by
tempo-control events of that same track. -/
theorem c6_track_independence (mid1 mid2 : MidiFile) (i : ℕ) (tr : List Msg)
    (hppq : mid1.ticks_per_beat = mid2.ticks_per_beat)
    (hscan : (scanFile mid1).bpm = (scanFile mid2).bpm)
    (h1 : mid1.tracks[i]? = some tr) (h2 : mid2.tracks[i]? = some tr) :
    trackEvents mid1 i = trackEvents mid2 i := by
  rw [trackEvents_eq mid1 i tr h1, trackEvents_eq mid2 i tr h2, hppq]
  unfold origTempoVal
  rw [hscan]

/-- Witness for the amended C6: two different containers agreeing on
resolution and scanned tempo, sharing track 1. -/
theorem c6_witness :
    c6InA.ticks_per_beat = c6InC.ticks_per_beat ∧
    (scanFile c6InA).bpm = (scanFile c6InC).bpm ∧
    c6InA.tracks[1]? = some [⟨480, .other 0 []⟩] ∧
    c6InC.tracks[1]? = some [⟨480, .other 0 []⟩] ∧
    trackEvents c6InA 1 = trackEvents c6InC 1 :=
  ⟨rfl, by with_unfolding_all decide, by decide, by decide,
    c6_track_independence c6InA c6InC 1 [⟨480, .other 0 []⟩] rfl
      (by with_unfolding_all decide) (by decide) (by decide)⟩

/-! ## Parameter scan characterization (C7) -/

theorem foldl_scanMsg_bpm :
    ∀ (l : List Msg) (s : ScanState),
      (l.foldl scanMsg s).bpm =
        (match lastTempoVal l with
         | none => s.bpm
         | some t => tempo2bpm (t : ℚ)) := by
  intro l
  induction l with
  | nil => intro s; rfl
  | cons m rest ih =>
    intro s
    rw [List.foldl_cons, ih]
    rcases hrest : lastTempoVal rest with _ | t
    · match hp : m.payload with
      | .setTempo v => rw [lastTempoVal, hrest, hp, scanMsg, hp]
      | .timeSignature n d => rw [lastTempoVal, hrest, hp, scanMsg, hp]
      | .other k ps => rw [lastTempoVal, hrest, hp, scanMsg, hp]
    · rw [lastTempoVal, hrest]

theorem foldl_scanMsg_ts :
    ∀ (l : List Msg) (s : ScanState),
      ((l.foldl scanMsg s).ts_num, (l.foldl scanMsg s).ts_den) =
        (match lastTimeSigVal l with
         | none => (s.ts_num, s.ts_den)
         | some p => p) := by
  intro l
  induction l with
  | nil => intro s; rfl
  | cons m rest ih =>
    intro s
    rw [List.foldl_cons, ih]
    rcases hrest : lastTimeSigVal rest with _ | p
    · match hp : m.payload with
      | .setTempo v => rw [lastTimeSigVal, hrest, hp, scanMsg, hp]
      | .timeSignature n d => rw [lastTimeSigVal, hrest, hp, scanMsg, hp]
      | .other k ps => rw [lastTimeSigVal, hrest, hp, scanMsg, hp]
    · rw [lastTimeSigVal, hrest]

/-- C7: the pre-scan yields the container's declared resolution, and the bpm
and time-signature derived from the last tempo-control and last
time-signature-control event seen across all tracks in scan order — single
file-wide scalars — defaulting to 120 bpm and 4/4 when no such event exists
anywhere in the file. -/
theorem c7_scan_defaults (mid : MidiFile) :
    (scanFile mid).bpm =
      (match lastTempoVal mid.tracks.flatten with
       | none => 120
       | some t => tempo2bpm (t : ℚ)) ∧
    ((scanFile mid).ts_num, (scanFile mid).ts_den) =
      (match lastTimeSigVal mid.tracks.flatten with
       | none => (4, 4)
       | some p => p) ∧
    finalPpq mid none = mid.ticks_per_beat := by
  refine ⟨?_, ?_, rfl⟩
  · rw [scanFile, ← List.foldl_flatten]
    exact foldl_scanMsg_bpm mid.tracks.flatten ⟨120, 4, 4⟩
  · rw [scanFile, ← List.foldl_flatten]
    exact foldl_scanMsg_ts mid.tracks.flatten ⟨120, 4, 4⟩

/-! ## The identity property (C2) -/

set_option maxRecDepth 20000 in
theorem c2_events :
    allEvents c2In = [⟨1, ⟨960, .other 0 []⟩, 0⟩, ⟨1, ⟨960, .other 1 []⟩, 0⟩] := by
  with_unfolding_all decide

set_option maxRecDepth 20000 in
theorem c2_sorted :
    sortEvents (trackEvents c2In 0) =
      [⟨1, ⟨960, .other 0 []⟩, 0⟩, ⟨1, ⟨960, .other 1 []⟩, 0⟩] := by
  rw [trackEvents, c2_events]
  with_unfolding_all decide

theorem c2_ticks : absTicksList c2In none none 0 = [0, 0, 1920, 1920] := by
  rw [absTicksList, c2_sorted, if_pos rfl]
  with_unfolding_all decide

/-- C2 counterexample: with no overrides, the input whose two tempo-control
events disagree (120 bpm then 240 bpm) puts its first note — input absolute
tick 960 — at output absolute tick 1920, i.e. 960 ticks away from its original
position, far beyond 1-tick rounding error. -/
theorem c2_counterexample :
    c2In.tracks[0]?.map (absTicksIn 0) = some [960, 1920] ∧
    absTicksList c2In none none 0 = [0, 0, 1920, 1920] ∧
    ¬ |(1920 : ℤ) - 960| ≤ 1 := by
  refine ⟨by decide, c2_ticks, by decide⟩

theorem convertGo_uniform (ppq : ℚ) (i : ℕ) (t0 : ℤ) :
    ∀ (l : List Msg) (a : ℤ), (∀ m ∈ l, payloadTempoIs t0 m.payload) →
      convertGo ppq i a t0 l =
        (absPairsIn a l).map
          (fun p => ⟨tick2second (p.1 : ℚ) ppq (t0 : ℚ), p.2, i⟩) := by
  intro l
  induction l with
  | nil => intro a _; rfl
  | cons m rest ih =>
    intro a hl
    have hm := hl m (List.mem_cons_self m rest)
    have hrest : ∀ m' ∈ rest, payloadTempoIs t0 m'.payload :=
      fun m' hm' => hl m' (List.mem_cons_of_mem m hm')
    match hp : m.payload with
    | .setTempo v =>
      have hv : v = t0 := by rw [hp] at hm; exact hm
      rw [convertGo, hp, absPairsIn, if_pos (by rw [hp]; rfl), hv]
      exact ih _ hrest
    | .timeSignature n d =>
      rw [convertGo, hp, absPairsIn, if_pos (by rw [hp]; rfl)]
      exact ih _ hrest
    | .other k ps =>
      rw [convertGo, hp, absPairsIn, if_neg (by rw [hp]; simp [isControl])]
      rw [List.map_cons]
      exact congrArg _ (ih _ hrest)

theorem absPairsIn_fst_bound_sorted :
    ∀ (l : List Msg) (a : ℤ), (∀ m ∈ l, 0 ≤ m.time) →
      (∀ p ∈ absPairsIn a l, a ≤ p.1) ∧
      List.Pairwise (fun p q : ℤ × Msg => p.1 ≤ q.1) (absPairsIn a l) := by
  intro l
  induction l with
  | nil => intro a _; exact ⟨fun p hp => by simp [absPairsIn] at hp, by simp [absPairsIn]⟩
  | cons m rest ih =>
    intro a hl
    have hm : 0 ≤ m.time := hl m (List.mem_cons_self m rest)
    have hrest : ∀ m' ∈ rest, 0 ≤ m'.time :=
      fun m' hm' => hl m' (List.mem_cons_of_mem m hm')
    have hat : a ≤ a + m.time := by omega
    rcases ih (a + m.time) hrest with ⟨hbound, hpair⟩
    rw [absPairsIn]
    by_cases hc : isControl m.payload
    · rw [if_pos hc]
      exact ⟨fun p hp => le_trans hat (hbound p hp), hpair⟩
    · rw [if_neg hc]
      refine ⟨?_, ?_⟩
      · intro p hp
        rcases List.mem_cons.mp hp with h1 | h2
        · rw [h1]; exact hat
        · exact le_trans hat (hbound p h2)
      · exact List.Pairwise.cons (fun p hp => hbound p hp) hpair

theorem tick2second_mono {x y : ℚ} (ppq t : ℚ) (hxy : x ≤ y)
    (hppq : 0 ≤ ppq) (ht : 0 ≤ t) :
    tick2second x ppq t ≤ tick2second y ppq t :=
  mul_le_mul_of_nonneg_right hxy
    (div_nonneg (div_nonneg ht (by norm_num : (0:ℚ) ≤ 1000000)) hppq)

theorem second2tick_tick2second (x ppq t : ℚ) (hppq : ppq ≠ 0) (ht : t ≠ 0) :
    second2tick (tick2second x ppq t) ppq t = x := by
  unfold tick2second second2tick
  exact mul_div_cancel_right₀ x
    (div_ne_zero (div_ne_zero ht (by norm_num : (1000000:ℚ) ≠ 0)) hppq)

/-- C2 amended: the no-override transform is an exact identity on absolute
tick positions whenever every tempo-control event of the input carries the
scanned original tempo (in particular when the input has at most one distinct
tempo); with disagreeing tempo-control events it can move events, see the
counterexample. -/
theorem c2_identity_uniform (mid : MidiFile)
    (hppq : 0 < mid.ticks_per_beat)
    (htimes : ∀ tr ∈ mid.tracks, ∀ m ∈ tr, 0 ≤ m.time)
    (huni : UniformTempo mid (origTempoVal mid))
    (hpos : 0 < origTempoVal mid)
    (i : ℕ) (tr : List Msg) (h : mid.tracks[i]? = some tr) :
    absTicksList mid none none i =
      (if i = 0 then [0, 0] else []) ++ absTicksIn 0 tr := by
  have htrmem : tr ∈ mid.tracks := List.getElem?_mem h
  have htr := trackEvents_eq mid i tr h
  have hconv := convertGo_uniform (mid.ticks_per_beat : ℚ) i (origTempoVal mid) tr 0
    (huni tr htrmem)
  rcases absPairsIn_fst_bound_sorted tr 0 (htimes tr htrmem) with ⟨_, hpair⟩
  have hsorted : List.Sorted secLe (trackEvents mid i) := by
    rw [htr, hconv]
    apply List.Pairwise.map
    · intro p q hpq
      show tick2second (p.1 : ℚ) _ _ ≤ tick2second (q.1 : ℚ) _ _
      exact tick2second_mono _ _ (by exact_mod_cast hpq) (Nat.cast_nonneg _)
        (by exact_mod_cast le_of_lt hpos)
    · exact hpair
  have hid : sortEvents (trackEvents mid i) = trackEvents mid i := by
    rw [sortEvents]
    exact List.Sorted.insertionSort_eq hsorted
  suffices hmain : (sortEvents (trackEvents mid i)).map (newAbsTick mid none none) =
      absTicksIn 0 tr by
    rw [absTicksList, hmain]
  rw [hid, htr, hconv, List.map_map, absTicksIn]
  apply List.map_congr_left
  intro p _
  show pyRound (second2tick
      (tick2second (p.1 : ℚ) (mid.ticks_per_beat : ℚ) ((origTempoVal mid : ℤ) : ℚ))
      ((finalPpq mid none : ℕ) : ℚ) ((newTempoVal mid none : ℤ) : ℚ)) = p.1
  have hfp : ((finalPpq mid none : ℕ) : ℚ) = (mid.ticks_per_beat : ℚ) := rfl
  have hnt : ((newTempoVal mid none : ℤ) : ℚ) = ((origTempoVal mid : ℤ) : ℚ) := rfl
  rw [hfp, hnt, second2tick_tick2second _ _ _
    (by exact_mod_cast Nat.pos_iff_ne_zero.mp hppq)
    (by exact_mod_cast ne_of_gt hpos), pyRound_intCast]

/-- Witness for the amended C2 at the single-tempo concrete scenario input. -/
theorem c2_witness :
    0 < c1In.ticks_per_beat ∧
    (∀ tr ∈ c1In.tracks, ∀ m ∈ tr, 0 ≤ m.time) ∧
    UniformTempo c1In (origTempoVal c1In) ∧
    0 < origTempoVal c1In ∧
    c1In.tracks[0]? = some [⟨0, .setTempo 500000⟩, ⟨960, .other 0 []⟩] ∧
    absTicksList c1In none none 0 =
      (if (0:ℕ) = 0 then [0, 0] else []) ++
        absTicksIn 0 [⟨0, .setTempo 500000⟩, ⟨960, .other 0 []⟩] :=
  ⟨by decide, by decide, by with_unfolding_all decide, by with_unfolding_all decide,
   by decide,
   c2_identity_uniform c1In (by decide) (by decide) (by with_unfolding_all decide)
     (by with_unfolding_all decide) 0 _ (by decide)⟩

/-- Witness for C3 at the concrete scenario input. -/
theorem c3_witness :
    remapCore c1In (some 60) none none none = some c1Out ∧
    cumSums 0 ((c1Out.tracks.get ⟨0, by decide⟩).map Msg.time) =
      absTicksList c1In (some 60) none 0 :=
  ⟨c1_remap,
    c3_conservation c1In (some 60) none none none c1Out c1_remap 0 (by decide)⟩

end SongRemap
